import Mathlib

/-!
Verification of the fusion-retrieval ranking core of the RAG_Techniques
repository (notebook function `fusion_retrieval`).  Scores are embedded as
rationals; numpy arrays become lists; numpy exceptions become `Option`
(with `none` standing for the raised error).
-/

namespace FusionRetrieval

/-- The constant `epsilon = 1e-8` from the source. -/
def epsilon : ℚ := 1 / 100000000

/-- `np.min` over the nonempty array `x :: xs`. -/
def listMin (x : ℚ) (xs : List ℚ) : ℚ := xs.foldl min x

/-- `np.max` over the nonempty array `x :: xs`. -/
def listMax (x : ℚ) (xs : List ℚ) : ℚ := xs.foldl max x

/-- Step 4 of `fusion_retrieval`: min-max normalization of one score vector.
With `higherIsBetter = true` this is the bm25 line
`(s - np.min(s)) / (np.max(s) - np.min(s) + epsilon)`;
with `higherIsBetter = false` it is the vector-score line
`1 - (s - np.min(s)) / (np.max(s) - np.min(s) + epsilon)`.
`np.min` and `np.max` raise on a zero-size array, modelled by `none`. -/
def normalize_scores (higherIsBetter : Bool) (s : List ℚ) : Option (List ℚ) :=
  match s with
  | [] => none
  | x :: xs =>
    let mn := listMin x xs
    let mx := listMax x xs
    if higherIsBetter then
      some ((x :: xs).map (fun v => (v - mn) / (mx - mn + epsilon)))
    else
      some ((x :: xs).map (fun v => 1 - (v - mn) / (mx - mn + epsilon)))

/-- Elementwise addition of two 1-d numpy arrays, with numpy broadcasting:
equal lengths add pointwise, a length-1 array is broadcast to the other
length, and any other shape mismatch raises (modelled by `none`). -/
def npAdd (xs ys : List ℚ) : Option (List ℚ) :=
  if xs.length = ys.length then some (List.zipWith (· + ·) xs ys)
  else if xs.length = 1 then some (ys.map (fun y => xs.headI + y))
  else if ys.length = 1 then some (xs.map (fun x => x + ys.headI))
  else none

/-- Step 5 of `fusion_retrieval`:
`combined_scores = alpha * vector_scores + (1 - alpha) * bm25_scores`. -/
def combine_scores (alpha : ℚ) (vector_scores bm25_scores : List ℚ) :
    Option (List ℚ) :=
  npAdd (vector_scores.map (fun v => alpha * v))
    (bm25_scores.map (fun b => (1 - alpha) * b))

/-- The comparison behind `np.argsort`: strictly smaller value first, and
on exactly equal values the smaller index first (the tie rule of the
insertion sort numpy uses on small arrays; see `np_argsort`). -/
def argRel (v : List ℚ) (i j : ℕ) : Prop :=
  v.getD i 0 < v.getD j 0 ∨ (v.getD i 0 = v.getD j 0 ∧ i ≤ j)

instance argRelDecidable (v : List ℚ) : DecidableRel (argRel v) := fun _ _ =>
  inferInstanceAs (Decidable (_ ∨ _))

instance argRelTotal (v : List ℚ) : IsTotal ℕ (argRel v) where
  total i j := by
    rcases lt_trichotomy (v.getD i 0) (v.getD j 0) with h | h | h
    · exact Or.inl (Or.inl h)
    · rcases Nat.le_total i j with hij | hij
      · exact Or.inl (Or.inr ⟨h, hij⟩)
      · exact Or.inr (Or.inr ⟨h.symm, hij⟩)
    · exact Or.inr (Or.inl h)

instance argRelTrans (v : List ℚ) : IsTrans ℕ (argRel v) where
  trans i j l hij hjl := by
    rcases hij with h1 | ⟨e1, le1⟩
    · rcases hjl with h2 | ⟨e2, _⟩
      · exact Or.inl (h1.trans h2)
      · exact Or.inl (e2 ▸ h1)
    · rcases hjl with h2 | ⟨e2, le2⟩
      · exact Or.inl (e1 ▸ h2)
      · exact Or.inr ⟨e1.trans e2, le1.trans le2⟩

/-- Step 6 of `fusion_retrieval`, first half: `np.argsort(combined_scores)`
as index list, ascending by score.  This model fixes ties in ascending
index order, which matches numpy exactly in the insertion-sort regime of
its default quicksort (arrays of length at most 15); for longer arrays
numpy leaves the order of equal keys unspecified, so the theorems below
rely on the tie order only under that length bound. -/
def np_argsort (v : List ℚ) : List ℕ :=
  List.insertionSort (argRel v) (List.range v.length)

/-- Steps 6 and 7 of `fusion_retrieval` on the index level:
`sorted_indices = np.argsort(combined_scores)[::-1]` followed by the
truncation `sorted_indices[:k]`. -/
def rank_top_k (combined : List ℚ) (k : ℕ) : List ℕ :=
  ((np_argsort combined).reverse).take k

/-- Steps 4 to 7 of `fusion_retrieval` applied to two raw score vectors
that the caller has already paired up index by index: normalize the vector
scores (distance-oriented) and the bm25 scores (similarity-oriented),
combine them with weight `alpha`, and return the top `k` ranked indices.
`none` models a numpy exception in any step. -/
def fusion_core (bm25_raw vector_raw : List ℚ) (alpha : ℚ) (k : ℕ) :
    Option (List ℕ) :=
  match normalize_scores false vector_raw, normalize_scores true bm25_raw with
  | some vector_scores, some bm25_scores =>
    match combine_scores alpha vector_scores bm25_scores with
    | some combined => some (rank_top_k combined k)
    | none => none
  | _, _ => none

/-- A FAISS-backed vector store for one fixed query: the corpus in index
insertion order (the order the bm25 index was also built from, one id per
document), the distance of each document to the query embedding, and the
distance of each document to the embedding of the empty string. -/
structure VectorStoreModel where
  corpus : List ℕ
  queryDist : ℕ → ℚ
  emptyDist : ℕ → ℚ

/-- `vectorstore.similarity_search_with_score(q, k)`: every indexed
document with its distance, ascending by distance, truncated to `k`. -/
def similarity_search_with_score (vs : VectorStoreModel) (dist : ℕ → ℚ)
    (k : ℕ) : List (ℕ × ℚ) :=
  (List.insertionSort (fun p q : ℕ × ℚ => p.2 ≤ q.2)
    (vs.corpus.map (fun d => (d, dist d)))).take k

/-- The whole of `fusion_retrieval`: step 1 gets `all_docs` by an
empty-query similarity search over the full index, step 2 gets bm25 scores
(in corpus build order), step 3 gets the vector results (ascending by
query distance), steps 4 to 7 normalize, combine, rank, and index into
`all_docs`.  Returns the ids of the top `k` documents. -/
def fusion_retrieval (vs : VectorStoreModel) (bm25score : ℕ → ℚ)
    (k : ℕ) (alpha : ℚ) : Option (List ℕ) :=
  let all_docs :=
    (similarity_search_with_score vs vs.emptyDist vs.corpus.length).map
      Prod.fst
  let bm25_scores := vs.corpus.map bm25score
  let vector_results :=
    similarity_search_with_score vs vs.queryDist all_docs.length
  let vector_scores := vector_results.map Prod.snd
  match normalize_scores false vector_scores,
      normalize_scores true bm25_scores with
  | some vnorm, some bnorm =>
    match combine_scores alpha vnorm bnorm with
    | some combined =>
      some ((rank_top_k combined k).map (fun i => all_docs.getD i 0))
    | none => none
  | _, _ => none

/-- Concrete two-document store: document 0 is far from the query
(distance 9/10) and document 1 is near it (distance 1/10), while the
empty-query search happens to list them in corpus order. -/
def vsEx : VectorStoreModel where
  corpus := [0, 1]
  queryDist := fun d => if d = 0 then 9/10 else 1/10
  emptyDist := fun d => if d = 0 then 1/10 else 9/10

end FusionRetrieval

namespace FusionRetrieval

theorem epsilon_pos : 0 < epsilon := by norm_num [epsilon]

theorem listMin_le (xs : List ℚ) : ∀ x : ℚ, ∀ v ∈ x :: xs, listMin x xs ≤ v := by
  induction xs with
  | nil =>
    intro x v hv
    simp only [List.mem_singleton] at hv
    simp [listMin, hv]
  | cons y ys ih =>
    intro x v hv
    have hstep : listMin x (y :: ys) = listMin (min x y) ys := rfl
    rw [hstep]
    rcases List.mem_cons.mp hv with h | hv2
    · rw [h]
      exact le_trans (ih (min x y) (min x y) (List.mem_cons_self _ _))
        (min_le_left _ _)
    · rcases List.mem_cons.mp hv2 with h | hv3
      · rw [h]
        exact le_trans (ih (min x y) (min x y) (List.mem_cons_self _ _))
          (min_le_right _ _)
      · exact ih (min x y) v (List.mem_cons_of_mem _ hv3)

theorem listMin_mem (xs : List ℚ) : ∀ x : ℚ, listMin x xs ∈ x :: xs := by
  induction xs with
  | nil => intro x; simp [listMin]
  | cons y ys ih =>
    intro x
    have hstep : listMin x (y :: ys) = listMin (min x y) ys := rfl
    rw [hstep]
    rcases List.mem_cons.mp (ih (min x y)) with h | h
    · rcases min_choice x y with hc | hc
      · rw [h, hc]; exact List.mem_cons_self _ _
      · rw [h, hc]; exact List.mem_cons_of_mem _ (List.mem_cons_self _ _)
    · exact List.mem_cons_of_mem _ (List.mem_cons_of_mem _ h)

theorem le_listMax (xs : List ℚ) : ∀ x : ℚ, ∀ v ∈ x :: xs, v ≤ listMax x xs := by
  induction xs with
  | nil =>
    intro x v hv
    simp only [List.mem_singleton] at hv
    simp [listMax, hv]
  | cons y ys ih =>
    intro x v hv
    have hstep : listMax x (y :: ys) = listMax (max x y) ys := rfl
    rw [hstep]
    rcases List.mem_cons.mp hv with h | hv2
    · rw [h]
      exact le_trans (le_max_left _ _)
        (ih (max x y) (max x y) (List.mem_cons_self _ _))
    · rcases List.mem_cons.mp hv2 with h | hv3
      · rw [h]
        exact le_trans (le_max_right _ _)
          (ih (max x y) (max x y) (List.mem_cons_self _ _))
      · exact ih (max x y) v (List.mem_cons_of_mem _ hv3)

theorem listMax_mem (xs : List ℚ) : ∀ x : ℚ, listMax x xs ∈ x :: xs := by
  induction xs with
  | nil => intro x; simp [listMax]
  | cons y ys ih =>
    intro x
    have hstep : listMax x (y :: ys) = listMax (max x y) ys := rfl
    rw [hstep]
    rcases List.mem_cons.mp (ih (max x y)) with h | h
    · rcases max_choice x y with hc | hc
      · rw [h, hc]; exact List.mem_cons_self _ _
      · rw [h, hc]; exact List.mem_cons_of_mem _ (List.mem_cons_self _ _)
    · exact List.mem_cons_of_mem _ (List.mem_cons_of_mem _ h)

theorem listMin_le_listMax (x : ℚ) (xs : List ℚ) : listMin x xs ≤ listMax x xs :=
  listMin_le xs x (listMax x xs) (listMax_mem xs x)

theorem denom_pos (x : ℚ) (xs : List ℚ) :
    0 < listMax x xs - listMin x xs + epsilon := by
  have h1 := listMin_le_listMax x xs
  have h2 := epsilon_pos
  linarith

theorem getD_map_of_lt (f : ℚ → ℚ) : ∀ (l : List ℚ) (i : ℕ), i < l.length →
    (l.map f).getD i 0 = f (l.getD i 0) := by
  intro l
  induction l with
  | nil => intro i hi; simp at hi
  | cons a l ih =>
    intro i hi
    cases i with
    | zero => simp
    | succ n =>
      simp only [List.map_cons, List.getD_cons_succ]
      exact ih n (by simpa using hi)

theorem combine_scores_eq (alpha : ℚ) (v l : List ℚ) (h : v.length = l.length) :
    combine_scores alpha v l =
      some (List.zipWith (fun a b => alpha * a + (1 - alpha) * b) v l) := by
  simp [combine_scores, npAdd, h, List.zipWith_map]

theorem zipWith_alpha_one (v : List ℚ) : ∀ l : List ℚ, v.length = l.length →
    List.zipWith (fun a b => 1 * a + (1 - 1) * b) v l = v := by
  induction v with
  | nil => intro l h; simp
  | cons a v ih =>
    intro l h
    cases l with
    | nil => simp at h
    | cons b l =>
      simp only [List.zipWith_cons_cons]
      rw [ih l (by simpa using h)]
      norm_num

theorem zipWith_alpha_zero (v : List ℚ) : ∀ l : List ℚ, v.length = l.length →
    List.zipWith (fun a b => 0 * a + (1 - 0) * b) v l = l := by
  induction v with
  | nil =>
    intro l h
    cases l with
    | nil => simp
    | cons b l => simp at h
  | cons a v ih =>
    intro l h
    cases l with
    | nil => simp at h
    | cons b l =>
      simp only [List.zipWith_cons_cons]
      rw [ih l (by simpa using h)]
      norm_num

theorem mem_zipWith_exists (f : ℚ → ℚ → ℚ) : ∀ (v l : List ℚ) (z : ℚ),
    z ∈ List.zipWith f v l → ∃ x ∈ v, ∃ y ∈ l, z = f x y := by
  intro v
  induction v with
  | nil => intro l z hz; simp at hz
  | cons a v ih =>
    intro l z hz
    cases l with
    | nil => simp at hz
    | cons b l =>
      simp only [List.zipWith_cons_cons] at hz
      rcases List.mem_cons.mp hz with h | h
      · exact ⟨a, List.mem_cons_self _ _, b, List.mem_cons_self _ _, h⟩
      · obtain ⟨x, hx, y, hy, he⟩ := ih l z h
        exact ⟨x, List.mem_cons_of_mem _ hx, y, List.mem_cons_of_mem _ hy, he⟩

theorem np_argsort_sorted (v : List ℚ) :
    List.Sorted (argRel v) (np_argsort v) :=
  List.sorted_insertionSort (argRel v) (List.range v.length)

theorem np_argsort_perm (v : List ℚ) :
    List.Perm (np_argsort v) (List.range v.length) :=
  List.perm_insertionSort (argRel v) (List.range v.length)

theorem rank_top_k_length (combined : List ℚ) (k : ℕ) :
    (rank_top_k combined k).length = min k combined.length := by
  simp [rank_top_k, np_argsort]

theorem rank_top_k_mem_lt (combined : List ℚ) (k : ℕ) :
    ∀ i ∈ rank_top_k combined k, i < combined.length := by
  intro i hi
  have h1 : i ∈ (np_argsort combined).reverse := List.mem_of_mem_take hi
  have h2 : i ∈ np_argsort combined := List.mem_reverse.mp h1
  have h3 : i ∈ List.range combined.length := (np_argsort_perm combined).mem_iff.mp h2
  exact List.mem_range.mp h3

theorem rank_top_k_pairwise (combined : List ℚ) (k : ℕ) :
    List.Pairwise (fun i j => combined.getD j 0 < combined.getD i 0 ∨
      (combined.getD j 0 = combined.getD i 0 ∧ j ≤ i))
      (rank_top_k combined k) := by
  have hs : List.Pairwise (argRel combined) (np_argsort combined) :=
    np_argsort_sorted combined
  have hrev : List.Pairwise (fun i j => argRel combined j i)
      ((np_argsort combined).reverse) := List.pairwise_reverse.mpr hs
  exact List.Pairwise.sublist (List.take_sublist _ _) hrev

theorem normalize_scores_some (b : Bool) (s : List ℚ) (hs : s ≠ []) :
    ∃ out, normalize_scores b s = some out ∧ out.length = s.length := by
  match s with
  | [] => exact absurd rfl hs
  | x :: xs => cases b <;> exact ⟨_, rfl, by simp [normalize_scores]⟩

theorem normalize_scores_mem_bounds (b : Bool) (x : ℚ) (xs : List ℚ)
    (out : List ℚ) (hout : normalize_scores b (x :: xs) = some out) :
    ∀ y ∈ out, 0 ≤ y ∧ y ≤ 1 ∧ (b = true → y < 1) ∧ (b = false → 0 < y) := by
  have hd := denom_pos x xs
  have heps := epsilon_pos
  cases b with
  | true =>
    have hout2 : out = (x :: xs).map
        (fun v => (v - listMin x xs) / (listMax x xs - listMin x xs + epsilon)) := by
      simp only [normalize_scores, if_pos, Option.some_inj] at hout
      exact hout.symm
    intro y hy
    rw [hout2] at hy
    obtain ⟨v, hv, he⟩ := List.mem_map.mp hy
    have hmn := listMin_le xs x v hv
    have hmx := le_listMax xs x v hv
    have h0 : 0 ≤ y := by
      rw [← he]
      exact div_nonneg (by linarith) hd.le
    have h1 : y < 1 := by
      rw [← he, div_lt_one hd]
      linarith
    exact ⟨h0, h1.le, fun _ => h1, fun hf => by simp at hf⟩
  | false =>
    have hout2 : out = (x :: xs).map
        (fun v => 1 - (v - listMin x xs) / (listMax x xs - listMin x xs + epsilon)) := by
      simp [normalize_scores] at hout
      exact hout.symm
    intro y hy
    rw [hout2] at hy
    obtain ⟨v, hv, he⟩ := List.mem_map.mp hy
    have hmn := listMin_le xs x v hv
    have hmx := le_listMax xs x v hv
    have hq0 : 0 ≤ (v - listMin x xs) / (listMax x xs - listMin x xs + epsilon) :=
      div_nonneg (by linarith) hd.le
    have hq1 : (v - listMin x xs) / (listMax x xs - listMin x xs + epsilon) < 1 := by
      rw [div_lt_one hd]
      linarith
    refine ⟨by rw [← he]; linarith, by rw [← he]; linarith, fun ht => by simp at ht,
      fun _ => by rw [← he]; linarith⟩

/-- C1: the claim that the lexical and vector score vectors handed to the
fusion step are index-aligned to one canonical corpus ordering fails on the
code.  In the store `vsEx` the corpus (and bm25) order is `[0, 1]`, but the
vector scores arrive in query-distance order, so position 0 of the vector
score vector belongs to document 1 while position 0 of the lexical score
vector belongs to document 0; with `alpha = 1` and `k = 1` the pipeline
then returns document 0 even though the unique nearest document to the
query is document 1. -/
theorem C1_alignment_is_violated :
    vsEx.corpus = [0, 1] ∧
    (similarity_search_with_score vsEx vsEx.queryDist
      vsEx.corpus.length).map Prod.fst = [1, 0] ∧
    fusion_retrieval vsEx (fun _ => 1) 1 1 = some [0] ∧
    (similarity_search_with_score vsEx vsEx.queryDist 1).map Prod.fst = [1] := by
  refine ⟨rfl, ?_, ?_, ?_⟩ <;>
    norm_num [fusion_retrieval, vsEx, similarity_search_with_score,
      normalize_scores, combine_scores, npAdd, rank_top_k, np_argsort, argRel,
      listMin, listMax, epsilon, List.insertionSort, List.orderedInsert]

/-- C2: for every nonempty score vector `s`, normalization returns the
vector whose entry `i` is `(s[i] - min s) / (max s - min s + epsilon)` when
`higherIsBetter` is true and `1 -` that quotient when it is false, where
`min s` and `max s` are the genuine minimum and maximum of `s`; the output
has the same length and index alignment as the input (the embedding is a
pure function, so the input is not mutated). -/
theorem C2_normalization_formula (b : Bool) (s : List ℚ) (hs : s ≠ []) :
    ∃ mn mx out,
      mn ∈ s ∧ (∀ v ∈ s, mn ≤ v) ∧ mx ∈ s ∧ (∀ v ∈ s, v ≤ mx) ∧
      normalize_scores b s = some out ∧ out.length = s.length ∧
      ∀ i, i < s.length → out.getD i 0 =
        (if b then (s.getD i 0 - mn) / (mx - mn + epsilon)
         else 1 - (s.getD i 0 - mn) / (mx - mn + epsilon)) := by
  match s with
  | [] => exact absurd rfl hs
  | x :: xs =>
    cases b with
    | true =>
      refine ⟨listMin x xs, listMax x xs,
        (x :: xs).map (fun v =>
          (v - listMin x xs) / (listMax x xs - listMin x xs + epsilon)),
        listMin_mem xs x, listMin_le xs x, listMax_mem xs x, le_listMax xs x,
        by simp [normalize_scores], by simp, ?_⟩
      intro i hi
      simp only [if_true]
      exact getD_map_of_lt _ (x :: xs) i hi
    | false =>
      refine ⟨listMin x xs, listMax x xs,
        (x :: xs).map (fun v =>
          1 - (v - listMin x xs) / (listMax x xs - listMin x xs + epsilon)),
        listMin_mem xs x, listMin_le xs x, listMax_mem xs x, le_listMax xs x,
        by simp [normalize_scores], by simp, ?_⟩
      intro i hi
      simp only [Bool.false_eq_true, if_false]
      exact getD_map_of_lt _ (x :: xs) i hi

/-- Witness for C2 at the concrete vector `[3, 7]`. -/
theorem C2_normalization_formula_witness :
    (([(3:ℚ), 7] : List ℚ) ≠ []) ∧
    ∃ mn mx out,
      mn ∈ ([(3:ℚ), 7] : List ℚ) ∧ (∀ v ∈ ([(3:ℚ), 7] : List ℚ), mn ≤ v) ∧
      mx ∈ ([(3:ℚ), 7] : List ℚ) ∧ (∀ v ∈ ([(3:ℚ), 7] : List ℚ), v ≤ mx) ∧
      normalize_scores true [(3:ℚ), 7] = some out ∧
      out.length = ([(3:ℚ), 7] : List ℚ).length ∧
      ∀ i, i < ([(3:ℚ), 7] : List ℚ).length → out.getD i 0 =
        (if true then (([(3:ℚ), 7] : List ℚ).getD i 0 - mn) / (mx - mn + epsilon)
         else 1 - (([(3:ℚ), 7] : List ℚ).getD i 0 - mn) / (mx - mn + epsilon)) :=
  ⟨by simp, C2_normalization_formula true [3, 7] (by simp)⟩

/-- C3: when every value of the score vector is the same constant `c`
(including the single-element case), every normalized value is `0` on the
`higherIsBetter` branch and `1` on the distance branch, purely because of
the epsilon guard. -/
theorem C3_degenerate_normalization (s : List ℚ) (c : ℚ) (hs : s ≠ [])
    (hall : ∀ v ∈ s, v = c) :
    ∃ outT outF,
      normalize_scores true s = some outT ∧
      normalize_scores false s = some outF ∧
      (∀ y ∈ outT, y = 0) ∧ (∀ y ∈ outF, y = 1) := by
  match s with
  | [] => exact absurd rfl hs
  | x :: xs =>
    have hmn : listMin x xs = c := hall _ (listMin_mem xs x)
    have hmx : listMax x xs = c := hall _ (listMax_mem xs x)
    refine ⟨(x :: xs).map (fun v =>
        (v - listMin x xs) / (listMax x xs - listMin x xs + epsilon)),
      (x :: xs).map (fun v =>
        1 - (v - listMin x xs) / (listMax x xs - listMin x xs + epsilon)),
      by simp [normalize_scores], by simp [normalize_scores], ?_, ?_⟩
    · intro y hy
      obtain ⟨v, hv, he⟩ := List.mem_map.mp hy
      rw [← he, hall v hv, hmn, hmx]
      simp
    · intro y hy
      obtain ⟨v, hv, he⟩ := List.mem_map.mp hy
      rw [← he, hall v hv, hmn, hmx]
      simp

/-- Witness for C3 at the constant vector `[5, 5]`. -/
theorem C3_degenerate_normalization_witness :
    (([(5:ℚ), 5] : List ℚ) ≠ []) ∧ (∀ v ∈ ([(5:ℚ), 5] : List ℚ), v = 5) ∧
    ∃ outT outF,
      normalize_scores true [(5:ℚ), 5] = some outT ∧
      normalize_scores false [(5:ℚ), 5] = some outF ∧
      (∀ y ∈ outT, y = 0) ∧ (∀ y ∈ outF, y = 1) :=
  ⟨by simp, by simp,
    C3_degenerate_normalization [5, 5] 5 (by simp) (by simp)⟩

/-- C4 counterexample: on two documents with exactly equal combined scores
the ranking step returns `[1, 0]`, the reverse of the original corpus index
order `[0, 1]` that the claim requires, because `np.argsort(..)[::-1]`
turns the stable ascending tie order into descending index order. -/
theorem C4_tiebreak_counterexample :
    fusion_core [(1:ℚ), 1] [(2:ℚ), 2] (1/2) 2 = some [1, 0] ∧
    ([1, 0] : List ℕ) ≠ [0, 1] := by
  constructor
  · norm_num [fusion_core, normalize_scores, combine_scores, npAdd,
      rank_top_k, np_argsort, argRel, listMin, listMax, epsilon,
      List.insertionSort, List.orderedInsert]
  · simp

/-- C4 amended: for every pair of equal-length normalized score vectors,
every `alpha` and every `k`, the ranking step returns exactly `min k n`
valid document indices sorted by weakly descending combined score; and on
corpora of at most 15 documents (the insertion-sort regime of numpy
default argsort, which covers the counterexample) documents of exactly
equal combined score appear in descending (reverse corpus) index order,
because `[::-1]` reverses the ascending tie order.  For larger corpora
numpy leaves the tie order unspecified. -/
theorem C4_ranking_amended (nv nl : List ℚ) (alpha : ℚ) (k : ℕ)
    (hlen : nv.length = nl.length) :
    ∃ combined, combine_scores alpha nv nl = some combined ∧
      (rank_top_k combined k).length = min k nv.length ∧
      (∀ i ∈ rank_top_k combined k, i < nv.length) ∧
      List.Pairwise (fun i j => combined.getD j 0 ≤ combined.getD i 0)
        (rank_top_k combined k) ∧
      (nv.length ≤ 15 →
        List.Pairwise (fun i j => combined.getD j 0 < combined.getD i 0 ∨
          (combined.getD j 0 = combined.getD i 0 ∧ j ≤ i))
          (rank_top_k combined k)) := by
  have hzl : (List.zipWith (fun a b => alpha * a + (1 - alpha) * b)
      nv nl).length = nv.length := by
    simp [hlen]
  refine ⟨_, combine_scores_eq alpha nv nl hlen, ?_, ?_, ?_, ?_⟩
  · rw [rank_top_k_length, hzl]
  · intro i hi
    have := rank_top_k_mem_lt _ k i hi
    rwa [hzl] at this
  · exact (rank_top_k_pairwise _ k).imp
      (fun h => h.elim le_of_lt (fun he => le_of_eq he.1))
  · exact fun _ => rank_top_k_pairwise _ k

/-- Witness for the amended C4 at two equal-length vectors. -/
theorem C4_ranking_amended_witness :
    (([(1:ℚ), 1] : List ℚ).length = ([(2:ℚ), 3] : List ℚ).length) ∧
    ∃ combined, combine_scores (1/2) [(1:ℚ), 1] [(2:ℚ), 3] = some combined ∧
      (rank_top_k combined 2).length = min 2 ([(1:ℚ), 1] : List ℚ).length ∧
      (∀ i ∈ rank_top_k combined 2, i < ([(1:ℚ), 1] : List ℚ).length) ∧
      List.Pairwise (fun i j => combined.getD j 0 ≤ combined.getD i 0)
        (rank_top_k combined 2) ∧
      (([(1:ℚ), 1] : List ℚ).length ≤ 15 →
        List.Pairwise (fun i j => combined.getD j 0 < combined.getD i 0 ∨
          (combined.getD j 0 = combined.getD i 0 ∧ j ≤ i))
          (rank_top_k combined 2)) :=
  ⟨rfl, C4_ranking_amended [1, 1] [2, 3] (1/2) 2 rfl⟩

/-- C5 counterexample: fusing score vectors of lengths 2 and 1 raises
nothing: numpy broadcasting silently stretches the length-1 vector, and a
combined result of length 2 is returned. -/
theorem C5_broadcast_counterexample :
    (([(1:ℚ)/2, 1/4] : List ℚ).length ≠ ([(1:ℚ)/3] : List ℚ).length) ∧
    combine_scores (1/2) [(1:ℚ)/2, 1/4] [(1:ℚ)/3] = some [5/12, 7/24] := by
  constructor
  · simp
  · norm_num [combine_scores, npAdd]

/-- C5 amended: fusing two score vectors of unequal length raises an error
(a generic numpy broadcast failure, not a dedicated MisalignedScores) only
when neither vector has length 1; a length-1 vector on either side is
silently broadcast to the length of the other vector. -/
theorem C5_mismatch_amended (alpha : ℚ) (xs ys : List ℚ)
    (h : xs.length ≠ ys.length) :
    (xs.length ≠ 1 → ys.length ≠ 1 → combine_scores alpha xs ys = none) ∧
    (xs.length = 1 → ∃ out, combine_scores alpha xs ys = some out ∧
      out.length = ys.length) ∧
    (ys.length = 1 → ∃ out, combine_scores alpha xs ys = some out ∧
      out.length = xs.length) := by
  refine ⟨?_, ?_, ?_⟩
  · intro hx hy
    simp [combine_scores, npAdd, h, hx, hy]
  · intro hx
    have hsome : combine_scores alpha xs ys =
        some ((ys.map (fun b => (1 - alpha) * b)).map
          (fun y => (xs.map (fun v => alpha * v)).headI + y)) := by
      simp only [combine_scores, npAdd, List.length_map]
      rw [if_neg h, if_pos hx]
    exact ⟨_, hsome, by simp⟩
  · intro hy
    have hx1 : xs.length ≠ 1 := fun hx => h (hx.trans hy.symm)
    have hsome : combine_scores alpha xs ys =
        some ((xs.map (fun v => alpha * v)).map
          (fun x => x + (ys.map (fun b => (1 - alpha) * b)).headI)) := by
      simp only [combine_scores, npAdd, List.length_map]
      rw [if_neg h, if_neg hx1, if_pos hy]
    exact ⟨_, hsome, by simp⟩

/-- Witness for the amended C5: the error clause at lengths 2 and 3 and
the first-vector broadcast clause at lengths 1 and 3. -/
theorem C5_mismatch_amended_witness :
    (([(1:ℚ), 2] : List ℚ).length ≠ ([(3:ℚ), 4, 5] : List ℚ).length) ∧
    combine_scores 1 [(1:ℚ), 2] [(3:ℚ), 4, 5] = none ∧
    (([(9:ℚ)] : List ℚ).length ≠ ([(3:ℚ), 4, 5] : List ℚ).length) ∧
    ∃ out, combine_scores 1 [(9:ℚ)] [(3:ℚ), 4, 5] = some out ∧
      out.length = ([(3:ℚ), 4, 5] : List ℚ).length :=
  ⟨by simp,
    (C5_mismatch_amended 1 [1, 2] [3, 4, 5] (by simp)).1 (by simp) (by simp),
    by simp,
    (C5_mismatch_amended 1 [9] [3, 4, 5] (by simp)).2.1 (by simp)⟩

/-- C6 counterexample: with `alpha = 2` (outside `[0, 1]`) the fusion step
still returns a ranked result, and with `k = 0` (below 1) it returns the
empty ranked result; neither configuration raises anything. -/
theorem C6_no_validation_counterexample :
    fusion_core [(0:ℚ), 1] [(0:ℚ), 1] 2 1 = some [0] ∧
    fusion_core [(0:ℚ), 1] [(0:ℚ), 1] (1/2) 0 = some [] := by
  constructor <;>
    norm_num [fusion_core, normalize_scores, combine_scores, npAdd,
      rank_top_k, np_argsort, argRel, listMin, listMax, epsilon,
      List.insertionSort, List.orderedInsert]

/-- C6 amended: the fusion step validates neither `alpha` nor `k`: for
every nonempty pair of equal-length raw score vectors, every rational
`alpha` (in range or not) and every count `k` (including 0), it returns a
ranked result of length `min k n` instead of failing fast. -/
theorem C6_no_validation_amended (bm v : List ℚ) (alpha : ℚ) (k : ℕ)
    (hb : bm ≠ []) (hlen : v.length = bm.length) :
    ∃ out, fusion_core bm v alpha k = some out ∧
      out.length = min k bm.length := by
  have hv : v ≠ [] := by
    intro hnil
    rw [hnil] at hlen
    cases bm with
    | nil => exact hb rfl
    | cons b bs => simp at hlen
  obtain ⟨vn, hvn, hvnl⟩ := normalize_scores_some false v hv
  obtain ⟨bn, hbn, hbnl⟩ := normalize_scores_some true bm hb
  have hcl : vn.length = bn.length := by rw [hvnl, hbnl, hlen]
  have hcomb := combine_scores_eq alpha vn bn hcl
  refine ⟨rank_top_k
      (List.zipWith (fun a b => alpha * a + (1 - alpha) * b) vn bn) k, ?_, ?_⟩
  · simp only [fusion_core, hvn, hbn, hcomb]
  · rw [rank_top_k_length]
    simp [hvnl, hbnl, hlen]

/-- Witness for the amended C6 with `alpha = 7` and `k = 5` on a corpus of
two documents. -/
theorem C6_no_validation_amended_witness :
    (([(1:ℚ), 2] : List ℚ) ≠ []) ∧
    ∃ out, fusion_core [(1:ℚ), 2] [(4:ℚ), 3] 7 5 = some out ∧
      out.length = min 5 ([(1:ℚ), 2] : List ℚ).length :=
  ⟨by simp, C6_no_validation_amended [1, 2] [4, 3] 7 5 (by simp) rfl⟩

/-- C7: normalization fails exactly on the empty score vector (the numpy
reduction over a zero-size array raises, modelled by `none`) and succeeds
on every vector of length at least 1. -/
theorem C7_empty_only_error (b : Bool) (s : List ℚ) :
    normalize_scores b s = none ↔ s = [] := by
  cases s with
  | nil => simp [normalize_scores]
  | cons x xs => cases b <;> simp [normalize_scores]

/-- C8: over equal-length normalized vectors, the combination with
`alpha = 1` is exactly the normalized vector-score vector and with
`alpha = 0` exactly the normalized lexical-score vector. -/
theorem C8_alpha_extremes (nv nl : List ℚ) (h : nv.length = nl.length) :
    combine_scores 1 nv nl = some nv ∧ combine_scores 0 nv nl = some nl := by
  constructor
  · rw [combine_scores_eq 1 nv nl h, zipWith_alpha_one nv nl h]
  · rw [combine_scores_eq 0 nv nl h, zipWith_alpha_zero nv nl h]

/-- Witness for C8 at two singleton vectors. -/
theorem C8_alpha_extremes_witness :
    (([(1:ℚ)/2] : List ℚ).length = ([(1:ℚ)/3] : List ℚ).length) ∧
    combine_scores 1 [(1:ℚ)/2] [(1:ℚ)/3] = some [(1:ℚ)/2] ∧
    combine_scores 0 [(1:ℚ)/2] [(1:ℚ)/3] = some [(1:ℚ)/3] :=
  ⟨rfl, (C8_alpha_extremes [(1:ℚ)/2] [(1:ℚ)/3] rfl).1,
    (C8_alpha_extremes [(1:ℚ)/2] [(1:ℚ)/3] rfl).2⟩

/-- C9: on the spec scenario (lexical raw scores `[0, 2, 4, 2]`, vector
raw distances `[1/10, 1/2, 1/20, 9/10]`, `alpha = 1/2`, `k = 2`, with the
two vectors already index-aligned), the fusion core returns exactly the
documents at corpus indices 2 and 1, in that order. -/
theorem C9_concrete_scenario :
    fusion_core [0, 2, 4, 2] [1/10, 1/2, 1/20, 9/10] (1/2) 2 = some [2, 1] := by
  norm_num [fusion_core, normalize_scores, combine_scores, npAdd,
    rank_top_k, np_argsort, argRel, listMin, listMax, epsilon,
    List.insertionSort, List.orderedInsert]

/-- C10: every value produced by normalization lies in `[0, 1]` — in
`(0, 1]` on the distance branch and `[0, 1)` on the `higherIsBetter`
branch — and for `alpha` in `[0, 1]` every combined score over two such
normalized vectors lies in `[0, 1]`. -/
theorem C10_unit_interval (sv sl : List ℚ) (alpha : ℚ)
    (hv : sv ≠ []) (hl : sl ≠ []) (hlen : sv.length = sl.length)
    (h0 : 0 ≤ alpha) (h1 : alpha ≤ 1) :
    ∃ nv nl c,
      normalize_scores false sv = some nv ∧
      normalize_scores true sl = some nl ∧
      combine_scores alpha nv nl = some c ∧
      (∀ y ∈ nv, 0 < y ∧ y ≤ 1) ∧
      (∀ y ∈ nl, 0 ≤ y ∧ y < 1) ∧
      (∀ y ∈ c, 0 ≤ y ∧ y ≤ 1) := by
  obtain ⟨x, xs, rfl⟩ := List.exists_cons_of_ne_nil hv
  obtain ⟨w, ws, rfl⟩ := List.exists_cons_of_ne_nil hl
  obtain ⟨nv, hnv, hnvl⟩ := normalize_scores_some false (x :: xs) (by simp)
  obtain ⟨nl, hnl, hnll⟩ := normalize_scores_some true (w :: ws) (by simp)
  have hb1 := normalize_scores_mem_bounds false x xs nv hnv
  have hb2 := normalize_scores_mem_bounds true w ws nl hnl
  have hcl : nv.length = nl.length := by
    rw [hnvl, hnll]
    exact hlen
  have hcomb := combine_scores_eq alpha nv nl hcl
  refine ⟨nv, nl, _, hnv, hnl, hcomb, ?_, ?_, ?_⟩
  · intro y hy
    obtain ⟨_, hy1, _, hy3⟩ := hb1 y hy
    exact ⟨hy3 rfl, hy1⟩
  · intro y hy
    obtain ⟨hy0, _, hy2, _⟩ := hb2 y hy
    exact ⟨hy0, hy2 rfl⟩
  · intro y hy
    obtain ⟨a, ha, bb, hbb, he⟩ := mem_zipWith_exists _ nv nl y hy
    obtain ⟨_, ha1, _, ha3⟩ := hb1 a ha
    obtain ⟨hbb0, _, hbb2, _⟩ := hb2 bb hbb
    have ha0 : 0 < a := ha3 rfl
    have hbb1 : bb < 1 := hbb2 rfl
    rw [he]
    constructor <;> nlinarith

/-- Witness for C10 at distances `[0, 1]`, lexical scores `[0, 2]` and
`alpha = 1/2`. -/
theorem C10_unit_interval_witness :
    (([(0:ℚ), 1] : List ℚ) ≠ []) ∧ (([(0:ℚ), 2] : List ℚ) ≠ []) ∧
    (([(0:ℚ), 1] : List ℚ).length = ([(0:ℚ), 2] : List ℚ).length) ∧
    ((0:ℚ) ≤ 1/2) ∧ ((1/2:ℚ) ≤ 1) ∧
    ∃ nv nl c,
      normalize_scores false [(0:ℚ), 1] = some nv ∧
      normalize_scores true [(0:ℚ), 2] = some nl ∧
      combine_scores (1/2) nv nl = some c ∧
      (∀ y ∈ nv, 0 < y ∧ y ≤ 1) ∧
      (∀ y ∈ nl, 0 ≤ y ∧ y < 1) ∧
      (∀ y ∈ c, 0 ≤ y ∧ y ≤ 1) :=
  ⟨by simp, by simp, rfl, by norm_num, by norm_num,
    C10_unit_interval [0, 1] [0, 2] (1/2) (by simp) (by simp) rfl
      (by norm_num) (by norm_num)⟩

end FusionRetrieval
